import Mathlib

/-!
Verification development for the voter-model simulation engine
(`VoterModel.py`, `vm_change.py`).

Shallow embedding conventions:
* Python floats are modelled as exact rationals (`ℚ`); belief identifiers
  are integers (`ℤ`, so that the `-1` "no change" sentinel of the
  categorical draws is representable).
* The implicit numpy random draws are passed in explicitly: the value of
  `np.random.rand()`, the index selected by `np.random.choice`, the waking
  node, the exponential time sample.
* `np.random.choice(a, p=probs)` validates its probability vector (raises
  `ValueError` when an entry is negative or the vector does not sum to 1,
  with numpy's float tolerance modelled as exact comparison) and raises
  when asked to draw from an empty/zero-length population; this is
  modelled by `npChoice` / `npChoiceNat` returning `Except`.
* Python `assert`, `ValueError` and `ZeroDivisionError` are modelled as
  `Except.error`.
-/

instance instDecEqExcept {ε α : Type} [DecidableEq ε] [DecidableEq α] :
    DecidableEq (Except ε α)
  | .error a, .error b =>
      if h : a = b then .isTrue (by rw [h]) else .isFalse (by simp [h])
  | .error _, .ok _ => .isFalse (by simp)
  | .ok _, .error _ => .isFalse (by simp)
  | .ok a, .ok b =>
      if h : a = b then .isTrue (by rw [h]) else .isFalse (by simp [h])

/-- The four voting methods of `Voter.voting_methods`. -/
inductive Method where
  | simple
  | probability
  | weighted_prob
  | single_neighbor
deriving DecidableEq, Repr

/-- The random draws a single `Voter.update` call may consume:
`acceptRand` is the value of `np.random.rand()` (simple rule), and
`choiceIdx` selects the element drawn by `np.random.choice`
(probability / weighted rules). -/
structure DrawRand where
  acceptRand : ℚ
  choiceIdx : ℕ
deriving DecidableEq, Repr

/-- A voter: degree, belief `(identifier, strength)`, acceptance
probability, and the transient inbox `_votes`. -/
structure Voter where
  degree : ℕ
  belief : ℤ × ℚ
  paccept : ℚ
  votes : List (ℤ × ℚ)
deriving DecidableEq, Repr

instance : Inhabited Voter := ⟨⟨0, (0, 1), 1, []⟩⟩

/-- One insertion into the pair of `defaultdict` tallies `cnts`/`wgts`.
The association list keeps keys in first-insertion order, mirroring the
iteration order of a Python `dict`. -/
def tallyAdd : List (ℤ × ℕ × ℚ) → ℤ → ℚ → List (ℤ × ℕ × ℚ)
  | [], b, w => [(b, 1, w)]
  | e :: rest, b, w =>
      if e.1 = b then (e.1, e.2.1 + 1, e.2.2 + w) :: rest
      else e :: tallyAdd rest b w

/-- The tally loop of `Voter.update`: the voter's own non-neutral belief
seeds a count of 1 and a weight equal to its strength, then every
non-neutral vote in the inbox adds a count of 1 and its strength. -/
def mkTally (v : Voter) : List (ℤ × ℕ × ℚ) :=
  let t0 := if v.belief.1 ≠ 0 then tallyAdd [] v.belief.1 v.belief.2 else []
  v.votes.foldl (fun t vote => if vote.1 = 0 then t else tallyAdd t vote.1 vote.2) t0

/-- Lookup of `wgts[b]` (a `defaultdict` returns 0 for a missing key). -/
def wgtOf : List (ℤ × ℕ × ℚ) → ℤ → ℚ
  | [], _ => 0
  | e :: rest, b => if e.1 = b then e.2.2 else wgtOf rest b

/-- The winner loop of the simple rule: scan the tally in order, starting
from `(self.belief[0], 0)`, replacing the running winner whenever a belief
has a strictly larger count, or an equal count and a different id than the
voter's current belief. -/
def simpleWinner (cur : ℤ) (t : List (ℤ × ℕ × ℚ)) : ℤ :=
  (t.foldl
    (fun acc e =>
      if e.2.1 > acc.2 ∨ (e.2.1 = acc.2 ∧ e.1 ≠ cur) then (e.1, e.2.1) else acc)
    (cur, 0)).1

/-- Model of `np.random.choice(xs, p=ps)`: raises when a probability is negative or
the vector does not sum to 1; otherwise returns the element at the drawn
(valid) index.  Raises on an empty population. -/
def npChoice (xs : List ℤ) (ps : List ℚ) (k : ℕ) : Except String ℤ :=
  if ps.any (fun p => decide (p < 0)) then .error "probabilities are not non-negative"
  else if ps.sum ≠ 1 then .error "probabilities do not sum to 1"
  else if xs.length = 0 then .error "a must be greater than 0 unless no samples are taken"
  else .ok (xs.getD (k % xs.length) 0)

/-- Model of `np.random.choice(n)`: raises when `n = 0`, otherwise returns a drawn
index in `[0, n)`. -/
def npChoiceNat (n : ℕ) (k : ℕ) : Except String ℕ :=
  if n = 0 then .error "a must be greater than 0 unless no samples are taken"
  else .ok (k % n)

/-- The `belief_list`/`belief_probs` construction of the weighted
probability branch: weights divided by `degree + 1`, the `-1` "no change"
sentinel appended with residual probability `1 - sum`, and every entry
clamped by `x*(x>=0)`. -/
def weightedLists (v : Voter) : List ℤ × List ℚ :=
  ((mkTally v).map (fun e => e.1) ++ [-1],
   ((mkTally v).map (fun e => e.2.2 / ((v.degree : ℚ) + 1)) ++
      [1 - ((mkTally v).map (fun e => e.2.2 / ((v.degree : ℚ) + 1))).sum]).map
     (fun x => if 0 ≤ x then x else 0))

/-- Translation of `Voter.update(method)` from `VoterModel.py`.  An empty inbox is an
immediate no-op.  The simple branch computes the acceptance draw
`accept = np.random.rand() < self.paccept` exactly as the source does —
and, exactly as the source does, never uses it.  The weighted branch
raises `ZeroDivisionError` when the drawn belief is not the sentinel and
the degree is 0 (the source always evaluates `wgts[draw]/self.degree`). -/
def Voter.update (v : Voter) (method : Method) (r : DrawRand) : Except String Voter :=
  if v.votes = [] then .ok v
  else
    let t := mkTally v
    match method with
    | .simple | .single_neighbor =>
        let _accept := decide (r.acceptRand < v.paccept)
        .ok { v with belief := (simpleWinner v.belief.1 t, 1), votes := [] }
    | .probability =>
        let belief_list := t.map (fun e => e.1)
        let belief_probs := t.map (fun e => (e.2.1 : ℚ) / ((v.degree : ℚ) + 1))
        match npChoice (belief_list ++ [-1]) (belief_probs ++ [1 - belief_probs.sum]) r.choiceIdx with
        | .error s => .error s
        | .ok d =>
            let d2 := if d = -1 then v.belief.1 else d
            .ok { v with belief := (d2, 1), votes := [] }
    | .weighted_prob =>
        match npChoice (weightedLists v).1 (weightedLists v).2 r.choiceIdx with
        | .error s => .error s
        | .ok d =>
            if d = -1 then .ok { v with votes := [] }
            else if v.degree = 0 then .error "division by zero"
            else
              let w := wgtOf t d
              let nw :=
                if d = v.belief.1 then max (w / ((v.degree : ℚ) + 1)) v.belief.2
                else w / (v.degree : ℚ)
              .ok { v with belief := (d, nw), votes := [] }

/-- Append a vote to the inbox of voter `i` (out-of-range indices leave the
list unchanged; the engine only uses in-range graph indices). -/
def appendVote : List Voter → ℕ → (ℤ × ℚ) → List Voter
  | [], _, _ => []
  | v :: vs, 0, b => { v with votes := v.votes ++ [b] } :: vs
  | v :: vs, n + 1, b => v :: appendVote vs n b

/-- Overwrite the belief of voter `i`, keeping its other fields. -/
def setBelief : List Voter → ℕ → (ℤ × ℚ) → List Voter
  | [], _, _ => []
  | v :: vs, 0, b => { v with belief := b } :: vs
  | v :: vs, n + 1, b => v :: setBelief vs n b

/-- Replace voter `i` wholesale (used after an in-place `update`). -/
def setVoter : List Voter → ℕ → Voter → List Voter
  | [], _, _ => []
  | _ :: vs, 0, w => w :: vs
  | v :: vs, n + 1, w => v :: setVoter vs n w

/-- Model of `Voter.exchange_votes` across the edge `(i, j)`: each endpoint
appends the other's current belief to its inbox. -/
def exchange_votes (vs : List Voter) (i j : ℕ) : List Voter :=
  appendVote (appendVote vs i (vs.getD j default).belief) j (vs.getD i default).belief

/-- Model of `Voter.push_vote`: voter `i` appends its belief to the inbox
of voter `j` without receiving anything back. -/
def push_vote (vs : List Voter) (i j : ℕ) : List Voter :=
  appendVote vs j (vs.getD i default).belief

/-- The strategy names of `VoterModel.init_methods`. -/
def init_methods : List String :=
  ["rand_pair", "all_rand", "all_rand_two", "all_rand_n", "all_unique"]

/-- The names of `VoterModel.visualization_methods`. -/
def visualization_methods : List String :=
  ["shell", "random", "kamada_kawai", "spring", "spectral", "circular"]

/-- The strings of `Voter.voting_methods` that the constructor validates. -/
def voting_methods : List String :=
  ["simple", "probability", "weighted_prob", "single_neighbor"]

/-- Translate a validated voting-method string to its tag. -/
def parseMethod : String → Option Method := fun s =>
  if s = "simple" then some .simple
  else if s = "probability" then some .probability
  else if s = "weighted_prob" then some .weighted_prob
  else if s = "single_neighbor" then some .single_neighbor
  else none

/-- The engine state: the borrowed graph (node count plus edge list),
the configuration, and the owned voter population. -/
structure VoterModel where
  numNodes : ℕ
  edges : List (ℕ × ℕ)
  voting : Method
  clock : String
  nbeliefs : ℕ
  visualization : String
  voters : List Voter
  init_method : Option String
deriving DecidableEq, Repr

/-- Translation of `VoterModel.__init__`: asserts the voting method, then
`nbeliefs == 2`, then the visualization method.  The `clock` string is
stored without any validation, exactly as in the source. -/
def mkVoterModel (numNodes : ℕ) (edges : List (ℕ × ℕ)) (voting clock : String)
    (nbeliefs : ℕ) (visualization : String) : Except String VoterModel :=
  match parseMethod voting with
  | none => .error "voting method must be in voting_methods"
  | some vm =>
      if nbeliefs ≠ 2 then .error "only 2 beliefs allowed for now"
      else if visualization ∉ visualization_methods then
        .error "visualization method must be in visualization_methods"
      else .ok ⟨numNodes, edges, vm, clock, nbeliefs, visualization, [], none⟩

/-- Model of `nx.degree(graph, n)`: the number of edges incident to `n`
(the graphs carry no self-loops). -/
def degreeOf (edges : List (ℕ × ℕ)) (n : ℕ) : ℕ :=
  edges.countP (fun e => e.1 == n || e.2 == n)

/-- The random draws `VoterModel.initialize` may consume: the two indices
of `np.random.choice(order, 2)` (drawn with replacement) and, for the
`all_rand` / `all_rand_n` strategies, one belief draw per node. -/
structure InitRand where
  i : ℕ
  j : ℕ
  draws : ℕ → ℤ

/-- Translation of `VoterModel.initialize`: validates the strategy name, computes the
degree sequence, then builds the voter population.  For `rand_pair` the
two drawn indices are applied in order (belief 1 first, belief 2 second),
so a colliding draw leaves a single voter at belief 2. -/
def VoterModel.initialize (m : VoterModel) (init_method : String) (k : ℕ)
    (r : InitRand) : Except String VoterModel :=
  if init_method ∈ init_methods then
    let degrees := (List.range m.numNodes).map (degreeOf m.edges)
    let voters :=
      if init_method = "rand_pair" then
        setBelief (setBelief (degrees.map (fun d => Voter.mk d (0, 1) 1 [])) r.i (1, 1)) r.j (2, 1)
      else if init_method = "all_rand" then
        degrees.enum.map (fun e => Voter.mk e.2 (r.draws e.1, 1) 1 [])
      else if init_method = "all_rand_two" then
        degrees.enum.map (fun e => Voter.mk e.2 (if e.1 < k then (1 : ℤ) else 2, 1) 1 [])
      else if init_method = "all_rand_n" then
        degrees.enum.map (fun e => Voter.mk e.2 (r.draws e.1, 1) 1 [])
      else
        degrees.enum.map (fun e => Voter.mk e.2 ((e.1 : ℤ) + 1, 1) 1 [])
    .ok { m with voters := voters, init_method := some init_method }
  else .error "initialization method must be in init_methods"

/-- Model of `list(self.graph.edges(node))`: the stored edges incident to `node`,
orientation preserved. -/
def incidentEdges (edges : List (ℕ × ℕ)) (node : ℕ) : List (ℕ × ℕ) :=
  edges.filter (fun e => e.1 == node || e.2 == node)

/-- The random draws one `VoterModel.update` call may consume. -/
structure StepRand where
  expTime : ℚ
  wake : ℕ
  edgeIdx : ℕ
  rands : ℕ → DrawRand

/-- The exponential-clock loop body over the waking node's edge list:
push the waking node's belief to the neighbor, run the neighbor's voting
rule, record its new belief id. -/
def pushAndUpdateAll (node : ℕ) (voting : Method) (rands : ℕ → DrawRand) :
    List (ℕ × ℕ) → ℕ → List Voter → List ℤ → Except String (List Voter × List ℤ)
  | [], _, voters, updated => .ok (voters, updated)
  | e :: rest, idx, voters, updated =>
      let neighbor := if e.1 = node then e.2 else e.1
      let voters1 := push_vote voters node neighbor
      match (voters1.getD neighbor default).update voting (rands idx) with
      | .error s => .error s
      | .ok v2 =>
          pushAndUpdateAll node voting rands rest (idx + 1)
            (setVoter voters1 neighbor v2) (updated.set neighbor v2.belief.1)

/-- The `clock == "exponential"` branch of `VoterModel.update`:
one wake-up event.  `single_neighbor` draws one incident edge (raising on
a degree-0 node); the other rules push to every incident neighbor. -/
def expUpdate (m : VoterModel) (r : StepRand) :
    Except String (List ℤ × List ℤ × List ℚ × VoterModel) :=
  let current := m.voters.map (fun v => v.belief.1)
  let times := [r.expTime]
  match npChoiceNat m.voters.length r.wake with
  | .error s => .error s
  | .ok node =>
      let edges := incidentEdges m.edges node
      if m.voting = .single_neighbor then
        match npChoiceNat edges.length r.edgeIdx with
        | .error s => .error s
        | .ok i =>
            let e := edges.getD i (0, 0)
            let neighbor := if e.1 = node then e.2 else e.1
            let voters1 := push_vote m.voters node neighbor
            match (voters1.getD neighbor default).update m.voting (r.rands 0) with
            | .error s => .error s
            | .ok v2 =>
                .ok (current, current.set neighbor v2.belief.1, times,
                     { m with voters := setVoter voters1 neighbor v2 })
      else
        match pushAndUpdateAll node m.voting r.rands edges 0 m.voters current with
        | .error s => .error s
        | .ok (vs, upd) => .ok (current, upd, times, { m with voters := vs })

/-- The vote-exchange phase of the discrete clock: every edge makes both
endpoints append each other's (start-of-round) belief. -/
def exchangePhase (voters : List Voter) (edges : List (ℕ × ℕ)) : List Voter :=
  edges.foldl (fun vs e => exchange_votes vs e.1 e.2) voters

/-- The update phase of the discrete clock: every voter, in order, records
its pre-update belief id, runs its voting rule, records the result. -/
def updatePhase (voting : Method) (rands : ℕ → DrawRand) :
    List Voter → ℕ → Except String (List ℤ × List ℤ × List Voter)
  | [], _ => .ok ([], [], [])
  | v :: vs, idx =>
      match v.update voting (rands idx) with
      | .error s => .error s
      | .ok v2 =>
          match updatePhase voting rands vs (idx + 1) with
          | .error s => .error s
          | .ok (cur, upd, rest) => .ok (v.belief.1 :: cur, v2.belief.1 :: upd, v2 :: rest)

/-- The discrete branch of `VoterModel.update`: all edges exchange votes
first, then every voter updates; elapsed time is the constant 1. -/
def discreteUpdate (m : VoterModel) (rands : ℕ → DrawRand) :
    Except String (List ℤ × List ℤ × List ℚ × VoterModel) :=
  let voters1 := exchangePhase m.voters m.edges
  match updatePhase m.voting rands voters1 0 with
  | .error s => .error s
  | .ok (cur, upd, vs) => .ok (cur, upd, [1], { m with voters := vs })

/-- Translation of `VoterModel.update`: dispatches on the stored clock string; any value
other than `"exponential"` takes the discrete branch. -/
def VoterModel.update (m : VoterModel) (r : StepRand) :
    Except String (List ℤ × List ℤ × List ℚ × VoterModel) :=
  if m.clock = "exponential" then expUpdate m r else discreteUpdate m r.rands

/-- Translation of `track_changes` from `vm_change.py`: appends the flux (number of
positions whose belief id changed), the per-belief fractions of the
updated snapshot, and the times list of this round. -/
def track_changes (current_beliefs updated_beliefs : List ℤ) (times : List ℚ)
    (flux_arr : List ℕ) (belief_arr : List (List ℚ)) (time_arr : List (List ℚ))
    (beliefs : List ℤ) : List ℕ × List (List ℚ) × List (List ℚ) :=
  let flux := ((current_beliefs.zip updated_beliefs).countP (fun p => p.1 != p.2))
  (flux_arr ++ [flux],
   belief_arr ++ [beliefs.map (fun b => (updated_beliefs.count b : ℚ) / (updated_beliefs.length : ℚ))],
   time_arr ++ [times])

/-- Translation of `convergence_time` from `vm_change.py`: `conv_arr` collects the round
indices whose recorded entry, read as a Python `set`, equals `{0, 1}`;
if none exists the total of all recorded times is returned, otherwise the
times of rounds `0 .. conv_arr[0]` are summed. -/
def convergence_time (time_arr : List (List ℚ)) (belief_arr : List (List ℚ)) : ℚ :=
  match (List.range belief_arr.length).filter
      (fun i => decide ((belief_arr.getD i []).toFinset = ({0, 1} : Finset ℚ))) with
  | [] => ((List.range time_arr.length).map (fun i => (time_arr.getD i []).sum)).sum
  | idx :: _ => ((List.range (idx + 1)).map (fun i => (time_arr.getD i []).sum)).sum

/-- C1: evaluation of the code at the failing input.  A voter holding
belief `(1, 1.0)` with `paccept = 0` receives one vote for belief 2;
under the simple rule every acceptance draw fails (`rand < 0` is false
for every sample in `[0, 1)`), yet `Voter.update` still installs belief
`(2, 1.0)` for every value of the draw — the computed `accept` flag is
never consulted, contradicting the claim (and the source's own
`paccept` documentation and `Probabilistically accept update` comment). -/
theorem accept_draw_is_ignored (r : ℚ) (k : ℕ) :
    Voter.update ⟨1, (1, 1), 0, [(2, 1)]⟩ .simple ⟨r, k⟩ = .ok ⟨1, (2, 1), 0, []⟩ :=
  rfl

/-- C7: simple-majority tie-break.  A voter holding belief 1 whose inbox
is exactly one vote for belief 2 (any strength, any degree, any
acceptance probability, any draw) switches to belief `(2, 1.0)`; and the
winner scan returns 2 for both orderings of the two tied tally entries. -/
theorem simple_tie_prefers_other_belief (w p : ℚ) (d : ℕ) (r : DrawRand) :
    Voter.update ⟨d, (1, 1), p, [(2, w)]⟩ .simple r = .ok ⟨d, (2, 1), p, []⟩ ∧
    simpleWinner 1 [(1, 1, 1), (2, 1, w)] = 2 ∧
    simpleWinner 1 [(2, 1, w), (1, 1, 1)] = 2 :=
  ⟨rfl, rfl, rfl⟩

/-- C8: discrete-mode simultaneity.  On the 2-node, 1-edge graph with
beliefs `{1, 2}`, simple voting and `paccept = 1.0`, one discrete step
reports pre-round ids `[1, 2]`, post-round ids `[2, 1]`, elapsed time 1,
and both voters flipped: each saw only the other's pre-round belief. -/
theorem discrete_step_both_flip :
    VoterModel.update
      ⟨2, [(0, 1)], .simple, "discrete", 2, "shell",
       [⟨1, (1, 1), 1, []⟩, ⟨1, (2, 1), 1, []⟩], none⟩
      ⟨0, 0, 0, fun _ => ⟨0, 0⟩⟩ =
    .ok ([1, 2], [2, 1], [1],
      ⟨2, [(0, 1)], .simple, "discrete", 2, "shell",
       [⟨1, (2, 1), 1, []⟩, ⟨1, (1, 1), 1, []⟩], none⟩) :=
  rfl

/-- C2, counterexample: under the exponential clock with the
`single_neighbor` rule, a wake-up at a degree-0 voter does raise — the
drawn edge index comes from `np.random.choice(0)`, which errors on an
empty edge list — contradicting "for every configured voting rule
including single_neighbor". -/
theorem exp_single_neighbor_degree0_raises :
    VoterModel.update
      ⟨1, [], .single_neighbor, "exponential", 2, "shell",
       [⟨0, (1, 1), 1, []⟩], none⟩
      ⟨1, 0, 0, fun _ => ⟨0, 0⟩⟩ =
    .error "a must be greater than 0 unless no samples are taken" :=
  rfl

/-- C2, amended: under the exponential clock, a wake-up event at a
degree-0 voter is a legal no-op for every voting rule other than
`single_neighbor`: the step returns normally, no votes are pushed, no
neighbor updates, every belief is unchanged, and the updated snapshot
equals the current one. -/
theorem exp_wake_isolated_noop (m : VoterModel) (r : StepRand)
    (hclock : m.clock = "exponential") (hvm : m.voting ≠ .single_neighbor)
    (hne : m.voters ≠ [])
    (hdeg : incidentEdges m.edges (r.wake % m.voters.length) = []) :
    VoterModel.update m r =
      .ok (m.voters.map (fun v => v.belief.1), m.voters.map (fun v => v.belief.1),
           [r.expTime], m) := by
  have hlen : m.voters.length ≠ 0 := fun h => hne (List.length_eq_zero.mp h)
  unfold VoterModel.update
  rw [hclock, if_pos rfl]
  unfold expUpdate npChoiceNat
  rw [if_neg hlen]
  simp only [hdeg, if_neg hvm]
  unfold pushAndUpdateAll
  rfl

/-- C2, witness for the amended theorem: a 2-voter, zero-edge model under
the exponential clock with the simple rule; waking either voter is a
no-op step. -/
theorem exp_wake_isolated_noop_witness :
    VoterModel.update
      ⟨2, [], .simple, "exponential", 2, "shell",
       [⟨0, (1, 1), 1, []⟩, ⟨0, (2, 1), 1, []⟩], none⟩
      ⟨5, 1, 0, fun _ => ⟨0, 0⟩⟩ =
    .ok ([1, 2], [1, 2], [5],
      ⟨2, [], .simple, "exponential", 2, "shell",
       [⟨0, (1, 1), 1, []⟩, ⟨0, (2, 1), 1, []⟩], none⟩) := by
  exact exp_wake_isolated_noop _ _ rfl (by decide) (by decide) rfl

lemma parseMethod_eq_none_iff (s : String) : parseMethod s = none ↔ s ∉ voting_methods := by
  unfold parseMethod voting_methods
  split_ifs with h1 h2 h3 h4 <;> simp_all

/-- C5, amended: an unknown voting-rule name, a belief count other than
2, and an unknown initialization-strategy name each raise at
construction/initialization time (the clock-mode name, by the
counterexample, is the one configuration option that is not checked). -/
theorem config_errors_raise :
    (∀ (n : ℕ) (edges : List (ℕ × ℕ)) (voting clock : String) (nb : ℕ) (vis : String),
       voting ∉ voting_methods →
       mkVoterModel n edges voting clock nb vis =
         .error "voting method must be in voting_methods") ∧
    (∀ (n : ℕ) (edges : List (ℕ × ℕ)) (voting clock : String) (nb : ℕ) (vis : String),
       nb ≠ 2 → voting ∈ voting_methods →
       mkVoterModel n edges voting clock nb vis =
         .error "only 2 beliefs allowed for now") ∧
    (∀ (m : VoterModel) (im : String) (k : ℕ) (r : InitRand),
       im ∉ init_methods →
       VoterModel.initialize m im k r =
         .error "initialization method must be in init_methods") := by
  refine ⟨fun n edges voting clock nb vis hv => ?_,
          fun n edges voting clock nb vis hnb hv => ?_,
          fun m im k r him => ?_⟩
  · unfold mkVoterModel
    rw [(parseMethod_eq_none_iff voting).mpr hv]
  · unfold mkVoterModel
    have : parseMethod voting ≠ none := fun h => (parseMethod_eq_none_iff voting).mp h hv
    obtain ⟨vm, hvm⟩ := Option.ne_none_iff_exists'.mp this
    rw [hvm]
    simp only [if_pos hnb]
  · unfold VoterModel.initialize
    rw [if_neg him]

/-- C5, witness: the three error cases at concrete configurations. -/
theorem config_errors_raise_witness :
    mkVoterModel 1 [] "majority" "discrete" 2 "shell" =
      .error "voting method must be in voting_methods" ∧
    mkVoterModel 1 [] "simple" "discrete" 3 "shell" =
      .error "only 2 beliefs allowed for now" ∧
    VoterModel.initialize
      ⟨1, [], .simple, "discrete", 2, "shell", [], none⟩ "all_same" 0 ⟨0, 0, fun _ => 0⟩ =
      .error "initialization method must be in init_methods" :=
  ⟨config_errors_raise.1 1 [] "majority" "discrete" 2 "shell" (by decide),
   config_errors_raise.2.1 1 [] "simple" "discrete" 3 "shell" (by decide) (by decide),
   config_errors_raise.2.2 _ "all_same" 0 ⟨0, 0, fun _ => 0⟩ (by decide)⟩

/-- C3, counterexample: `np.random.choice(order, 2)` draws the two
indices with replacement, so on a 2-node graph the colliding draw
`(0, 0)` leaves exactly one non-neutral voter (belief 2 overwrites
belief 1 at the same index), not the claimed two distinct ones. -/
theorem rand_pair_collision_one_nonneutral :
    VoterModel.initialize
      ⟨2, [(0, 1)], .simple, "discrete", 2, "shell", [], none⟩
      "rand_pair" 0 ⟨0, 0, fun _ => 0⟩ =
      .ok ⟨2, [(0, 1)], .simple, "discrete", 2, "shell",
           [⟨1, (2, 1), 1, []⟩, ⟨1, (0, 1), 1, []⟩], some "rand_pair"⟩ ∧
    ([(⟨1, (2, 1), 1, []⟩ : Voter), ⟨1, (0, 1), 1, []⟩].countP
        (fun v => decide (v.belief.1 ≠ 0))) = 1 ∧ (1 : ℕ) ≠ 2 := by
  refine ⟨rfl, by decide, by decide⟩

lemma length_setBelief (vs : List Voter) (i : ℕ) (b : ℤ × ℚ) :
    (setBelief vs i b).length = vs.length := by
  induction vs generalizing i with
  | nil => rfl
  | cons v vs ih =>
      cases i with
      | zero => rfl
      | succ n => simpa [setBelief] using ih n

lemma getD_setBelief (vs : List Voter) (i t : ℕ) (b : ℤ × ℚ) (d : Voter) :
    (setBelief vs i b).getD t d =
      if t = i ∧ t < vs.length then { vs.getD t d with belief := b } else vs.getD t d := by
  induction vs generalizing i t with
  | nil => simp [setBelief]
  | cons v vs ih =>
      cases i with
      | zero =>
          cases t with
          | zero => simp [setBelief]
          | succ t => simp [setBelief]
      | succ n =>
          cases t with
          | zero => simp [setBelief]
          | succ t =>
              simp only [setBelief, List.getD_cons_succ, ih n t, List.length_cons]
              by_cases h : t = n ∧ t < vs.length
              · rw [if_pos h, if_pos ⟨by omega, by omega⟩]
              · rw [if_neg h, if_neg (by omega)]

lemma belief_getD_map_mk (l : List ℕ) (t : ℕ) (d : Voter) (ht : t < l.length) :
    ((l.map (fun x => Voter.mk x (0, 1) 1 [])).getD t d).belief = (0, 1) := by
  induction l generalizing t with
  | nil => simp at ht
  | cons x l ih =>
      cases t with
      | zero => rfl
      | succ t => exact ih t (by simpa using ht)

/-- C3, amended: after `rand_pair` initialization with drawn indices
`i ≠ j` (both in range), voter `i` holds `(1, 1.0)`, voter `j` holds
`(2, 1.0)`, and every other voter holds the neutral `(0, 1.0)` — exactly
two non-neutral voters.  The two indices are drawn with replacement, so
distinctness is an assumption, not a guarantee (see the counterexample
for the colliding case, which yields a single non-neutral voter). -/
theorem rand_pair_two_nonneutral (m : VoterModel) (i j k : ℕ) (f : ℕ → ℤ)
    (hi : i < m.numNodes) (hj : j < m.numNodes) (hij : i ≠ j) :
    ∃ m', VoterModel.initialize m "rand_pair" k ⟨i, j, f⟩ = .ok m' ∧
      m'.voters.length = m.numNodes ∧
      (∀ t, t < m.numNodes →
        (m'.voters.getD t default).belief =
          if t = i then ((1 : ℤ), (1 : ℚ)) else if t = j then (2, 1) else (0, 1)) := by
  refine ⟨{ m with
      voters := setBelief (setBelief
        (((List.range m.numNodes).map (degreeOf m.edges)).map
          (fun d => Voter.mk d (0, 1) 1 [])) i (1, 1)) j (2, 1),
      init_method := some "rand_pair" }, rfl, ?_, ?_⟩
  all_goals
    have hblen : (((List.range m.numNodes).map (degreeOf m.edges)).map
        (fun d => Voter.mk d (0, 1) 1 [])).length = m.numNodes := by simp
  · rw [length_setBelief, length_setBelief, hblen]
  · intro t ht
    have h1len : (setBelief (((List.range m.numNodes).map (degreeOf m.edges)).map
        (fun d => Voter.mk d (0, 1) 1 [])) i (1, 1)).length = m.numNodes := by
      rw [length_setBelief, hblen]
    rw [getD_setBelief, getD_setBelief, h1len, hblen]
    by_cases htj : t = j
    · subst htj
      rw [if_pos ⟨rfl, ht⟩, if_neg (fun h : t = i => hij (h ▸ rfl)), if_pos rfl]
    · rw [if_neg (fun h => htj h.1)]
      by_cases hti : t = i
      · subst hti
        rw [if_pos ⟨rfl, ht⟩, if_pos rfl]
      · rw [if_neg (fun h => hti h.1), if_neg hti, if_neg htj]
        exact belief_getD_map_mk _ t _ (by simpa using ht)

/-- C3, witness for the amended theorem at a concrete 3-node model with
draws `(0, 2)`. -/
theorem rand_pair_two_nonneutral_witness :
    ∃ m', VoterModel.initialize
        ⟨3, [(0, 1), (1, 2)], .simple, "discrete", 2, "shell", [], none⟩
        "rand_pair" 0 ⟨0, 2, fun _ => 0⟩ = .ok m' ∧
      m'.voters.length = 3 ∧
      (∀ t, t < 3 →
        (m'.voters.getD t default).belief =
          if t = 0 then ((1 : ℤ), (1 : ℚ)) else if t = 2 then (2, 1) else (0, 1)) :=
  rand_pair_two_nonneutral _ 0 2 0 (fun _ => 0) (by decide) (by decide) (by decide)

/-- C5, counterexample: constructing the engine with the unknown
clock-mode name `"bogus_clock"` succeeds — the clock string is stored
unvalidated (no assert touches it), contradicting the claim that an
unknown clock-mode name raises at construction time. -/
theorem unknown_clock_mode_accepted :
    mkVoterModel 2 [] "simple" "bogus_clock" 2 "shell" =
      .ok ⟨2, [], .simple, "bogus_clock", 2, "shell", [], none⟩ ∧
    "bogus_clock" ≠ "discrete" ∧ "bogus_clock" ≠ "exponential" := by
  refine ⟨rfl, by decide, by decide⟩

lemma mem_getD (l : List (ℤ × ℕ × ℚ)) (t : ℕ) (d : ℤ × ℕ × ℚ) (ht : t < l.length) :
    l.getD t d ∈ l := by
  induction l generalizing t with
  | nil => simp at ht
  | cons e l ih =>
      cases t with
      | zero => simp
      | succ t => exact List.mem_cons_of_mem _ (ih t (by simpa using ht))

lemma getD_map_append (f : ℤ × ℕ × ℚ → ℚ) (l : List (ℤ × ℕ × ℚ)) (tail : List ℚ)
    (t : ℕ) (ht : t < l.length) :
    (l.map f ++ tail).getD t 0 = f (l.getD t (0, 0, 0)) := by
  induction l generalizing t with
  | nil => simp at ht
  | cons e l ih =>
      cases t with
      | zero => rfl
      | succ t => exact ih t (by simpa using ht)

lemma clamp_map_of_nonneg (l : List ℚ) (h : ∀ x ∈ l, 0 ≤ x) :
    l.map (fun x => if 0 ≤ x then x else 0) = l := by
  induction l with
  | nil => rfl
  | cons x l ih =>
      rw [List.map_cons, if_pos (h x (List.mem_cons_self x l)),
          ih (fun y hy => h y (List.mem_cons_of_mem x hy))]

/-- C4, counterexample: a degree-1 voter holding `(1, 1.0)` with one
inbox vote `(1, 1.0)` tallies weight 2 for belief 1; the probability the
code assigns to belief 1 is `2 / (degree + 1) = 1`, whereas the claimed
`weight / degree` would be `2 / 1 = 2`. -/
theorem weighted_prob_divisor_counterexample :
    (weightedLists ⟨1, (1, 1), 1, [(1, 1)]⟩).2 = [1, 0] ∧
    mkTally ⟨1, (1, 1), 1, [(1, 1)]⟩ = [(1, 2, 2)] ∧
    wgtOf (mkTally ⟨1, (1, 1), 1, [(1, 1)]⟩) 1 / ((1 : ℚ)) = 2 ∧
    ((1 : ℚ)) ≠ 2 := by
  have ht : mkTally ⟨1, (1, 1), 1, [(1, 1)]⟩ = [(1, 2, 2)] := by
    unfold mkTally tallyAdd
    norm_num
  refine ⟨?_, ht, ?_, by norm_num⟩
  · unfold weightedLists
    rw [ht]
    norm_num
  · rw [ht]
    unfold wgtOf
    norm_num

/-- C4, amended: in the weighted-probability rule the probability
assigned to each tallied belief equals its tallied weight divided by
`degree + 1` (the same divisor as the probability rule, not `degree`),
and after the clamp every entry of the probability vector — the residual
"no change" entry included — is non-negative. -/
theorem weighted_prob_divisor (v : Voter) (t : ℕ)
    (ht : t < (mkTally v).length)
    (hw : ∀ e ∈ mkTally v, 0 ≤ e.2.2) :
    (weightedLists v).2.getD t 0 =
      ((mkTally v).getD t (0, 0, 0)).2.2 / ((v.degree : ℚ) + 1) ∧
    (∀ x ∈ (weightedLists v).2, 0 ≤ x) := by
  constructor
  · simp only [weightedLists]
    rw [List.map_append, List.map_map,
        getD_map_append _ (mkTally v) _ t ht]
    have hnn : 0 ≤ ((mkTally v).getD t (0, 0, 0)).2.2 / ((v.degree : ℚ) + 1) := by
      apply div_nonneg
      · exact hw _ (mem_getD _ t _ ht)
      · positivity
    simp only [Function.comp_apply]
    exact if_pos hnn
  · intro x hx
    simp only [weightedLists] at hx
    rw [List.mem_map] at hx
    obtain ⟨y, _, hy⟩ := hx
    subst hy
    by_cases h : 0 ≤ y
    · rwa [if_pos h]
    · rw [if_neg h]

/-- C4, witness for the amended theorem: a degree-2 voter holding
`(1, 1.0)` with one inbox vote `(2, 1.0)`. -/
theorem weighted_prob_divisor_witness :
    (weightedLists ⟨2, (1, 1), 1, [(2, 1)]⟩).2.getD 0 0 =
      ((mkTally ⟨2, (1, 1), 1, [(2, 1)]⟩).getD 0 (0, 0, 0)).2.2 /
        (((⟨2, (1, 1), 1, [(2, 1)]⟩ : Voter).degree : ℚ) + 1) ∧
    (∀ x ∈ (weightedLists ⟨2, (1, 1), 1, [(2, 1)]⟩).2, 0 ≤ x) :=
  weighted_prob_divisor ⟨2, (1, 1), 1, [(2, 1)]⟩ 0 (by decide) (by decide)

lemma sum_map_div (l : List ℚ) (c : ℚ) :
    (l.map (fun x => x / c)).sum = l.sum / c := by
  induction l with
  | nil => simp
  | cons x l ih => simp [ih, add_div]

/-- C10: when the tallied weights sum to more than `degree + 1`, the
residual "no change" probability is negative, the clamp zeroes only that
entry, the probability vector sums to more than 1, and the categorical
draw raises instead of completing: `Voter.update` fails with numpy's
"probabilities do not sum to 1" for every draw index. -/
theorem weighted_prob_oversum_raises (v : Voter) (r : DrawRand)
    (hne : v.votes ≠ [])
    (hw : ∀ e ∈ mkTally v, 0 ≤ e.2.2)
    (hsum : ((mkTally v).map (fun e => e.2.2)).sum > (v.degree : ℚ) + 1) :
    Voter.update v .weighted_prob r = .error "probabilities do not sum to 1" := by
  have hdpos : (0 : ℚ) < (v.degree : ℚ) + 1 := by positivity
  have hps : ((mkTally v).map (fun e => e.2.2 / ((v.degree : ℚ) + 1))).sum =
      ((mkTally v).map (fun e => e.2.2)).sum / ((v.degree : ℚ) + 1) := by
    rw [← sum_map_div, List.map_map]
    rfl
  have hgt1 : ((mkTally v).map (fun e => e.2.2 / ((v.degree : ℚ) + 1))).sum > 1 := by
    rw [hps, gt_iff_lt, lt_div_iff₀ hdpos, one_mul]
    exact hsum
  have hmapnn : ∀ x ∈ (mkTally v).map (fun e => e.2.2 / ((v.degree : ℚ) + 1)), 0 ≤ x := by
    intro x hx
    rw [List.mem_map] at hx
    obtain ⟨e, he, hex⟩ := hx
    subst hex
    exact div_nonneg (hw e he) (le_of_lt hdpos)
  have hclamp : (weightedLists v).2 =
      (mkTally v).map (fun e => e.2.2 / ((v.degree : ℚ) + 1)) ++ [0] := by
    simp only [weightedLists]
    rw [List.map_append]
    congr 1
    · exact clamp_map_of_nonneg _ hmapnn
    · have hneg : ¬ (0 : ℚ) ≤ 1 - ((mkTally v).map (fun e => e.2.2 / ((v.degree : ℚ) + 1))).sum := by
        rw [not_le, sub_neg]
        exact hgt1
      rw [List.map_singleton, if_neg hneg]
  have hsum1 : (weightedLists v).2.sum ≠ 1 := by
    rw [hclamp, List.sum_append]
    simp only [List.sum_cons, List.sum_nil, add_zero]
    exact ne_of_gt hgt1
  have hnn : ∀ x ∈ (weightedLists v).2, ¬ x < 0 := by
    intro x hx
    rw [hclamp, List.mem_append] at hx
    rw [not_lt]
    rcases hx with hx | hx
    · exact hmapnn x hx
    · simp only [List.mem_singleton] at hx
      simp [hx]
  have hany : (weightedLists v).2.any (fun p => decide (p < 0)) = false := by
    by_contra hc
    rw [Bool.not_eq_false, List.any_eq_true] at hc
    obtain ⟨x, hx, hxlt⟩ := hc
    exact hnn x hx (of_decide_eq_true hxlt)
  have herr : npChoice (weightedLists v).1 (weightedLists v).2 r.choiceIdx =
      .error "probabilities do not sum to 1" := by
    unfold npChoice
    rw [hany]
    simp only [Bool.false_eq_true, if_false]
    rw [if_pos hsum1]
  unfold Voter.update
  rw [if_neg hne]
  simp only [herr]

/-- C10, witness: a degree-1 voter holding `(1, 1.0)` with two inbox
votes `(1, 1.0)` tallies total weight 3 > degree + 1 = 2; the update
raises. -/
theorem weighted_prob_oversum_raises_witness :
    Voter.update ⟨1, (1, 1), 1, [(1, 1), (1, 1)]⟩ .weighted_prob ⟨0, 0⟩ =
      .error "probabilities do not sum to 1" :=
  weighted_prob_oversum_raises ⟨1, (1, 1), 1, [(1, 1), (1, 1)]⟩ ⟨0, 0⟩
    (by decide)
    (by
      have ht : mkTally ⟨1, (1, 1), 1, [(1, 1), (1, 1)]⟩ = [(1, 3, 3)] := by
        unfold mkTally tallyAdd
        norm_num
      rw [ht]
      norm_num)
    (by
      have ht : mkTally ⟨1, (1, 1), 1, [(1, 1), (1, 1)]⟩ = [(1, 3, 3)] := by
        unfold mkTally tallyAdd
        norm_num
      rw [ht]
      norm_num)

lemma filter_range_cons (p : ℕ → Bool) (n j : ℕ) (hj : j < n) (hpj : p j = true)
    (hlt : ∀ i, i < j → p i = false) :
    ∃ rest, (List.range n).filter p = j :: rest := by
  have hn : n = j + (n - j - 1 + 1) := by omega
  have h1 : (List.range j).filter p = [] := by
    rw [List.filter_eq_nil_iff]
    intro a ha
    rw [List.mem_range] at ha
    simp [hlt a ha]
  have key : List.filter p (List.range n) =
      j :: List.filter p ((List.range (n - j - 1)).map (fun x => j + Nat.succ x)) := by
    conv_lhs => rw [hn]
    rw [List.range_add, List.filter_append, h1, List.nil_append,
        List.range_succ_eq_map, List.map_cons]
    simp only [Nat.add_zero]
    rw [List.filter_cons, if_pos hpj, List.map_map]
    rfl
  exact ⟨_, key⟩

/-- The recorded entry at round `j` is the first one whose value set
equals `{0, 1}`: `convergence_time` sums the recorded times of rounds
`0 .. j`. -/
lemma convergence_time_of_first (time_arr belief_arr : List (List ℚ)) (j : ℕ)
    (hj : j < belief_arr.length)
    (hpj : (belief_arr.getD j []).toFinset = ({0, 1} : Finset ℚ))
    (hlt : ∀ i, i < j → (belief_arr.getD i []).toFinset ≠ ({0, 1} : Finset ℚ)) :
    convergence_time time_arr belief_arr =
      ((List.range (j + 1)).map (fun i => (time_arr.getD i []).sum)).sum := by
  obtain ⟨rest, hr⟩ := filter_range_cons
    (fun i => decide ((belief_arr.getD i []).toFinset = ({0, 1} : Finset ℚ)))
    belief_arr.length j hj (decide_eq_true hpj) (fun i hi => decide_eq_false (hlt i hi))
  unfold convergence_time
  rw [hr]

/-- No recorded entry has value set `{0, 1}`: `convergence_time` sums
every recorded time. -/
lemma convergence_time_of_none (time_arr belief_arr : List (List ℚ))
    (h : ∀ i, i < belief_arr.length →
      (belief_arr.getD i []).toFinset ≠ ({0, 1} : Finset ℚ)) :
    convergence_time time_arr belief_arr =
      ((List.range time_arr.length).map (fun i => (time_arr.getD i []).sum)).sum := by
  have hr : (List.range belief_arr.length).filter
      (fun i => decide ((belief_arr.getD i []).toFinset = ({0, 1} : Finset ℚ))) = [] := by
    rw [List.filter_eq_nil_iff]
    intro a ha
    rw [List.mem_range] at ha
    exact fun hc => h a ha (of_decide_eq_true hc)
  unfold convergence_time
  rw [hr]

lemma half_zero_set_ne : (([1/2, 0] : List ℚ)).toFinset ≠ ({0, 1} : Finset ℚ) := by
  intro h
  have h1 : (1 : ℚ) ∈ (([1/2, 0] : List ℚ)).toFinset := by
    rw [h]
    simp
  simp only [List.toFinset_cons, List.toFinset_nil, insert_emptyc_eq,
    Finset.mem_insert, Finset.mem_singleton] at h1
  rcases h1 with h1 | h1 <;> norm_num at h1

/-- C6, counterexample: the check `set(belief_arr[i])` tests the set of recorded
distribution *fractions*, not belief ids.  A round whose updated snapshot
is `[0, 1]` (observed belief-id set exactly `{0, 1}`) is recorded by
`track_changes` (tracked beliefs `[1, 2]`) as the fractions `[1/2, 0]`,
whose set is `{1/2, 0} ≠ {0, 1}`; on the two-round history of such rounds
`convergence_time` returns the total 2, not the first round's elapsed
time 1 as the claim requires. -/
theorem convergence_time_counterexample :
    track_changes [0, 1] [0, 1] [1] [] [] [] [1, 2] = ([0], [[1/2, 0]], [[1]]) ∧
    ([0, 1] : List ℤ).toFinset = ({0, 1} : Finset ℤ) ∧
    convergence_time [[1], [1]] [[1/2, 0], [1/2, 0]] = 2 ∧
    (2 : ℚ) ≠ 1 := by
  refine ⟨?_, by decide, ?_, by norm_num⟩
  · unfold track_changes
    norm_num
  · rw [convergence_time_of_none]
    · simp [List.range_succ]
      norm_num
    · intro i hi
      have h01 : i = 0 ∨ i = 1 := by
        simp only [List.length_cons, List.length_nil] at hi
        omega
      rcases h01 with h01 | h01 <;> subst h01 <;> exact half_zero_set_ne

/-- C6: `convergence_time` sums the recorded elapsed times of rounds
`0 .. j` where round `j` is the first whose recorded belief-distribution
entry, read as a set, equals `{0, 1}` — i.e. one tracked belief holds
fraction 1 and another fraction 0, complete domination — and sums every
recorded elapsed time when no such round exists.  (The condition is on
the recorded fractions, not on the round's observed belief-id set as the
claim stated; see the counterexample.)  On a history whose every round
satisfies the condition, the first-match case at `j = 0` gives exactly
the first round's elapsed time. -/
theorem convergence_time_spec :
    (∀ (time_arr belief_arr : List (List ℚ)) (j : ℕ),
       j < belief_arr.length →
       (belief_arr.getD j []).toFinset = ({0, 1} : Finset ℚ) →
       (∀ i, i < j → (belief_arr.getD i []).toFinset ≠ ({0, 1} : Finset ℚ)) →
       convergence_time time_arr belief_arr =
         ((List.range (j + 1)).map (fun i => (time_arr.getD i []).sum)).sum) ∧
    (∀ (time_arr belief_arr : List (List ℚ)),
       (∀ i, i < belief_arr.length →
         (belief_arr.getD i []).toFinset ≠ ({0, 1} : Finset ℚ)) →
       convergence_time time_arr belief_arr =
         ((List.range time_arr.length).map (fun i => (time_arr.getD i []).sum)).sum) :=
  ⟨convergence_time_of_first, convergence_time_of_none⟩

/-- C6, witness: on a history whose (single) round is recorded as
`[1, 0]` — value set exactly `{0, 1}` — the convergence time is the sum
over rounds `0 .. 0`, i.e. the first round's elapsed time. -/
theorem convergence_time_spec_witness :
    convergence_time [[2], [3]] [[1, 0]] =
      ((List.range (0 + 1)).map
        (fun i => (([[(2 : ℚ)], [3]] : List (List ℚ)).getD i []).sum)).sum :=
  convergence_time_spec.1 [[2], [3]] [[1, 0]] 0 (by decide) (by decide)
    (fun i hi => absurd hi (Nat.not_lt_zero i))

/-- C9: strength is monotone for a retained identifier.  For every voter
whose current strength is within the documented `[0, 1]` range, every
voting rule and every random draw, if `Voter.update` succeeds and the
resulting belief identifier equals the one held before the call, the
resulting strength is at least the previous strength. -/
theorem retained_id_strength_monotone (v : Voter) (method : Method) (r : DrawRand)
    (v2 : Voter) (hs : v.belief.2 ≤ 1)
    (hup : Voter.update v method r = .ok v2)
    (hid : v2.belief.1 = v.belief.1) :
    v.belief.2 ≤ v2.belief.2 := by
  unfold Voter.update at hup
  by_cases hv : v.votes = []
  · rw [if_pos hv] at hup
    injection hup with h
    subst h
    exact le_refl _
  · rw [if_neg hv] at hup
    cases method with
    | simple =>
        dsimp only at hup
        injection hup with h
        subst h
        exact hs
    | single_neighbor =>
        dsimp only at hup
        injection hup with h
        subst h
        exact hs
    | probability =>
        dsimp only at hup
        split at hup
        · exact absurd hup (by simp)
        · injection hup with h
          subst h
          exact hs
    | weighted_prob =>
        dsimp only at hup
        split at hup
        · exact absurd hup (by simp)
        · split at hup
          · injection hup with h
            subst h
            exact le_refl _
          · split at hup
            · exact absurd hup (by simp)
            · injection hup with h
              subst h
              dsimp only at hid ⊢
              rw [if_pos hid]
              exact le_max_right _ _

/-- C9, witness: a voter holding `(1, 1/2)` receives one vote for
belief 1 under the simple rule; the update retains id 1 and the strength
rises from 1/2 to 1. -/
theorem retained_id_strength_monotone_witness :
    ((⟨2, (1, 1/2), 1, [(1, 1)]⟩ : Voter).belief.2) ≤
      ((⟨2, (1, 1), 1, []⟩ : Voter).belief.2) :=
  retained_id_strength_monotone ⟨2, (1, 1/2), 1, [(1, 1)]⟩ .simple ⟨0, 0⟩
    ⟨2, (1, 1), 1, []⟩ (by norm_num) (by decide) (by decide)
